import Mathlib

/-!
Verification model of `src/utils/ExpressionParser.js`.

The file shallowly embeds the expression-evaluation core of the repository:
the memoizing `ExpressionFeatureCache` (store + in-flight request set), the
fixpoint driver `parseExpression` and the batch driver `parseExpressionsAsync`.
JavaScript objects/sets become association lists over `String` keys; the
asynchronous fetch machinery becomes explicit state passing: a `get` call
returns the updated cache together with the value handed back to the caller
and the (possibly extended) promise list, and the completion callback of a
dispatched fetch is a separate state-transforming function.
-/

/-- Opaque feature record fetched from the external data source. -/
abbrev Feature := Nat

/-- The payload handed to the `getFeatures` callback: `none` models a `null`
result object, `some r` a result object with a `features` list. -/
structure FetchResult where
  features : List Feature
deriving DecidableEq, Repr

/-- State of the static `ExpressionFeatureCache` class: `store` maps keys to
resolved outcomes (a stored `none` is JavaScript `null`, i.e. a confirmed
absent lookup), `requests` is the set of keys with an outstanding fetch. -/
structure CacheState where
  store : List (String × Option Feature)
  requests : List String
deriving DecidableEq, Repr

/-- `key in store` / `store[key]` of the JavaScript object: first binding wins
(bindings are kept unique by construction). -/
def lookupStore (store : List (String × Option Feature)) (k : String) :
    Option (Option Feature) :=
  match store with
  | [] => none
  | (k', v) :: rest => if k' = k then some v else lookupStore rest k

/-- `store[key] = v` of the JavaScript object: overwrite or append. -/
def insertStore (store : List (String × Option Feature)) (k : String)
    (v : Option Feature) : List (String × Option Feature) :=
  match store with
  | [] => [(k, v)]
  | (k', v') :: rest =>
    if k' = k then (k, v) :: rest else (k', v') :: insertStore rest k v

/-- `requests.has(key)` of the JavaScript `Set`. -/
def memB (k : String) : List String → Bool
  | [] => false
  | k' :: rest => if k' = k then true else memB k rest

/-- `requests.delete(key)` of the JavaScript `Set`. -/
def removeKey (k : String) : List String → List String
  | [] => []
  | k' :: rest => if k' = k then removeKey k rest else k' :: removeKey k rest

/-- Line 18 of the source: `const key = dataset + ":" + attr + ":" + value`. -/
def mkKey (dataset attr value : String) : String :=
  dataset ++ ":" ++ attr ++ ":" ++ value

/-- A dispatched fetch request, i.e. the content of one pushed promise: the
`editIface.getFeatures(dataset, mapCrs, cb, null, [[attr, "=", value]])` call
made inside `ExpressionFeatureCache.get`. -/
structure Req where
  dataset : String
  mapCrs : String
  attr : String
  value : String
deriving DecidableEq, Repr

/-- The cache key a request resolves into. -/
def Req.key (r : Req) : String := mkKey r.dataset r.attr r.value

/-- Result of one `ExpressionFeatureCache.get` call: the cache afterwards, the
value returned to the expression, and the caller's promise list afterwards. -/
structure GetOut where
  cache : CacheState
  value : Option Feature
  promises : List Req
deriving DecidableEq, Repr

namespace ExpressionFeatureCache

/-- Lines 17–38 of the source. Stored hit: return the stored value (possibly
`null`). Pending key: return `null`, push nothing. Unknown key: add the key to
`requests`, push one promise wrapping a `getFeatures` dispatch, return `null`.
The fetch's completion callback is modelled separately by `complete`. -/
def get (s : CacheState) (dataset mapCrs attr value : String)
    (promises : List Req) : GetOut :=
  match lookupStore s.store (mkKey dataset attr value) with
  | some v => ⟨s, v, promises⟩
  | none =>
    if memB (mkKey dataset attr value) s.requests then
      ⟨s, none, promises⟩
    else
      ⟨{ store := s.store, requests := mkKey dataset attr value :: s.requests },
        none, promises ++ [⟨dataset, mapCrs, attr, value⟩]⟩

/-- Lines 25–33 of the source: the `getFeatures` callback for `key`, run when
the fetch delivers `result`. Only if the key is still in the current request
set does it store the outcome — the single feature when
`(result?.features || []).length === 1`, otherwise `null` — and delete the key;
in every case the promise is accepted (the callback is total). -/
def complete (s : CacheState) (key : String) (result : Option FetchResult) :
    CacheState :=
  if memB key s.requests then
    let feats := (result.map FetchResult.features).getD []
    { store := insertStore s.store key
        (if feats.length == 1 then feats.head? else none),
      requests := removeKey key s.requests }
  else s

/-- Lines 39–42 of the source: `clear` replaces the store with a fresh object
and the request set with a fresh `Set`. -/
def clear : CacheState := { store := [], requests := [] }

end ExpressionFeatureCache

/-- The cache before anything runs (static initializers, lines 15–16). -/
def initState : CacheState := { store := [], requests := [] }

/-- One externally observable cache operation: a `get` call from some
evaluation cycle, the completion callback of some dispatched fetch firing, or
a `clear()` call. Interleavings of concurrent evaluation cycles are arbitrary
lists of such events. -/
inductive Event where
  | get (dataset mapCrs attr value : String)
  | complete (key : String) (result : Option FetchResult)
  | clear
deriving DecidableEq, Repr

/-- Effect of one event on the shared cache. -/
def stepEv (s : CacheState) : Event → CacheState
  | .get d crs a v => (ExpressionFeatureCache.get s d crs a v []).cache
  | .complete k res => ExpressionFeatureCache.complete s k res
  | .clear => ExpressionFeatureCache.clear

/-- Run a sequence of events. -/
def runEv (s : CacheState) : List Event → CacheState
  | [] => s
  | e :: evs => runEv (stepEv s e) evs

/-- Whether an event dispatches a fetch for key `k`: a `get` event does exactly
when it pushes a promise (whose request resolves into `k`). -/
def dispatched (s : CacheState) (e : Event) (k : String) : Bool :=
  match e with
  | .get d crs a v =>
    if mkKey d a v = k then
      !(ExpressionFeatureCache.get s d crs a v []).promises.isEmpty
    else false
  | _ => false

/-- Number of fetches dispatched for key `k` along an event sequence. -/
def dispatchCount (s : CacheState) (k : String) : List Event → Nat
  | [] => 0
  | e :: evs =>
    (if dispatched s e k then 1 else 0) + dispatchCount (stepEv s e) k evs


/-! ### Branch equations for `get` and `complete` -/

theorem get_stored {s : CacheState} {d crs a v : String} {ps : List Req}
    {w : Option Feature} (h : lookupStore s.store (mkKey d a v) = some w) :
    ExpressionFeatureCache.get s d crs a v ps = ⟨s, w, ps⟩ := by
  unfold ExpressionFeatureCache.get
  rw [h]

theorem get_pending {s : CacheState} {d crs a v : String} {ps : List Req}
    (h1 : lookupStore s.store (mkKey d a v) = none)
    (h2 : memB (mkKey d a v) s.requests = true) :
    ExpressionFeatureCache.get s d crs a v ps = ⟨s, none, ps⟩ := by
  unfold ExpressionFeatureCache.get
  rw [h1]
  simp [h2]

theorem get_dispatch {s : CacheState} {d crs a v : String} {ps : List Req}
    (h1 : lookupStore s.store (mkKey d a v) = none)
    (h2 : memB (mkKey d a v) s.requests = false) :
    ExpressionFeatureCache.get s d crs a v ps =
      ⟨{ store := s.store, requests := mkKey d a v :: s.requests }, none,
        ps ++ [⟨d, crs, a, v⟩]⟩ := by
  unfold ExpressionFeatureCache.get
  rw [h1]
  simp [h2]

theorem complete_mem {s : CacheState} {k : String} {res : Option FetchResult}
    (h : memB k s.requests = true) :
    ExpressionFeatureCache.complete s k res =
      { store := insertStore s.store k
          (if ((res.map FetchResult.features).getD []).length == 1 then
            ((res.map FetchResult.features).getD []).head? else none),
        requests := removeKey k s.requests } := by
  simp [ExpressionFeatureCache.complete, h]

theorem complete_not_mem {s : CacheState} {k : String}
    {res : Option FetchResult} (h : memB k s.requests = false) :
    ExpressionFeatureCache.complete s k res = s := by
  simp [ExpressionFeatureCache.complete, h]

/-! ### Basic lemmas about the store and request-set operations -/

theorem lookup_insert_self (st : List (String × Option Feature)) (k : String)
    (v : Option Feature) : lookupStore (insertStore st k v) k = some v := by
  induction st with
  | nil => simp [insertStore, lookupStore]
  | cons p rest ih =>
    obtain ⟨k', v'⟩ := p
    by_cases h : k' = k
    · simp [insertStore, h, lookupStore]
    · simp [insertStore, h, lookupStore, ih]

theorem lookup_insert_ne (st : List (String × Option Feature)) {k k0 : String}
    (v : Option Feature) (h : k ≠ k0) :
    lookupStore (insertStore st k0 v) k = lookupStore st k := by
  have h' : ¬ (k0 = k) := fun hh => h hh.symm
  induction st with
  | nil => simp [insertStore, lookupStore, h']
  | cons p rest ih =>
    obtain ⟨k', v'⟩ := p
    by_cases hk : k' = k0
    · subst hk
      simp [insertStore, lookupStore, h']
    · simp only [insertStore, if_neg hk, lookupStore]
      by_cases hk' : k' = k
      · simp [hk']
      · simp [hk', ih]

theorem memB_removeKey_self (l : List String) (k : String) :
    memB k (removeKey k l) = false := by
  induction l with
  | nil => simp [removeKey, memB]
  | cons k' rest ih =>
    by_cases h : k' = k
    · simp [removeKey, h, ih]
    · simp [removeKey, h, memB, ih]

theorem memB_removeKey_ne (l : List String) {k k0 : String} (h : k ≠ k0) :
    memB k (removeKey k0 l) = memB k l := by
  have h' : ¬ (k0 = k) := fun hh => h hh.symm
  induction l with
  | nil => simp [removeKey, memB]
  | cons k' rest ih =>
    by_cases hk : k' = k0
    · subst hk
      simp [removeKey, memB, h', ih]
    · simp [removeKey, hk, memB, ih]

theorem memB_cons (k k' : String) (l : List String) :
    memB k (k' :: l) = if k' = k then true else memB k l := rfl

/-! ### The "live" predicate: pending or resolved keys never re-dispatch -/

/-- A key is live when it is pending or already resolved; a live key is never
dispatched again until `clear`. -/
def live (s : CacheState) (k : String) : Prop :=
  memB k s.requests = true ∨ (lookupStore s.store k).isSome = true

theorem live_step {s : CacheState} {e : Event} {k : String}
    (he : e ≠ Event.clear) (h : live s k) : live (stepEv s e) k := by
  cases e with
  | get d crs a v =>
    show live (ExpressionFeatureCache.get s d crs a v []).cache k
    cases hlook : lookupStore s.store (mkKey d a v) with
    | some w => rw [get_stored hlook]; exact h
    | none =>
      cases hm : memB (mkKey d a v) s.requests with
      | true => rw [get_pending hlook hm]; exact h
      | false =>
        rw [get_dispatch hlook hm]
        cases h with
        | inl h =>
          refine Or.inl ?_
          by_cases hk : mkKey d a v = k <;> simp [memB_cons, hk, h]
        | inr h => exact Or.inr h
  | complete k0 res =>
    show live (ExpressionFeatureCache.complete s k0 res) k
    cases hm : memB k0 s.requests with
    | false => rw [complete_not_mem hm]; exact h
    | true =>
      rw [complete_mem hm]
      by_cases hk : k = k0
      · subst hk
        exact Or.inr (by simp [lookup_insert_self])
      · cases h with
        | inl h => exact Or.inl (by simpa [memB_removeKey_ne _ hk] using h)
        | inr h => exact Or.inr (by simpa [lookup_insert_ne _ _ hk] using h)
  | clear => exact absurd rfl he

theorem live_not_dispatched {s : CacheState} {e : Event} {k : String}
    (h : live s k) : dispatched s e k = false := by
  cases e with
  | get d crs a v =>
    show (if mkKey d a v = k then
        !(ExpressionFeatureCache.get s d crs a v []).promises.isEmpty
      else false) = false
    by_cases hk : mkKey d a v = k
    · rw [if_pos hk]
      cases hlook : lookupStore s.store (mkKey d a v) with
      | some w => rw [get_stored hlook]; rfl
      | none =>
        cases hm : memB (mkKey d a v) s.requests with
        | true => rw [get_pending hlook hm]; rfl
        | false =>
          subst hk
          cases h with
          | inl h => simp [h] at hm
          | inr h => rw [hlook] at h; simp at h
    · rw [if_neg hk]
  | complete k0 res => rfl
  | clear => rfl

theorem blocked_zero {k : String} :
    ∀ (evs : List Event) (s : CacheState), Event.clear ∉ evs → live s k →
      dispatchCount s k evs = 0 := by
  intro evs
  induction evs with
  | nil => intro s _ _; rfl
  | cons e evs ih =>
    intro s h hl
    have he : e ≠ Event.clear := fun hc => h (by rw [hc]; exact List.mem_cons_self _ _)
    have ht : Event.clear ∉ evs := fun hc => h (List.mem_cons_of_mem e hc)
    have hd := live_not_dispatched (e := e) hl
    simp only [dispatchCount, hd]
    simpa using ih (stepEv s e) ht (live_step he hl)

theorem dispatch_makes_live {s : CacheState} {e : Event} {k : String}
    (h : dispatched s e k = true) : live (stepEv s e) k := by
  cases e with
  | get d crs a v =>
    have h' : (if mkKey d a v = k then
        !(ExpressionFeatureCache.get s d crs a v []).promises.isEmpty
      else false) = true := h
    by_cases hk : mkKey d a v = k
    · rw [if_pos hk] at h'
      show live (ExpressionFeatureCache.get s d crs a v []).cache k
      cases hlook : lookupStore s.store (mkKey d a v) with
      | some w => rw [get_stored hlook] at h' ⊢; simp at h'
      | none =>
        cases hm : memB (mkKey d a v) s.requests with
        | true => rw [get_pending hlook hm] at h' ⊢; simp at h'
        | false =>
          rw [get_dispatch hlook hm]
          refine Or.inl ?_
          simp [memB_cons, hk]
    · rw [if_neg hk] at h'
      exact Bool.noConfusion h'
  | complete k0 res => exact Bool.noConfusion h
  | clear => exact Bool.noConfusion h

/-- C1: for any cache key, at most one fetch is ever dispatched between two
consecutive `clear()` calls: along any interleaving of `get` calls (from any
number of concurrent evaluation cycles) and fetch completions that contains no
`clear` event, starting from an arbitrary cache state, the number of
`getFeatures` dispatches for a fixed key is at most one. -/
theorem single_dispatch_per_key (evs : List Event) (s : CacheState)
    (k : String) (h : Event.clear ∉ evs) : dispatchCount s k evs ≤ 1 := by
  induction evs generalizing s with
  | nil => simp [dispatchCount]
  | cons e evs ih =>
    have he : e ≠ Event.clear := fun hc => h (by rw [hc]; exact List.mem_cons_self _ _)
    have ht : Event.clear ∉ evs := fun hc => h (List.mem_cons_of_mem e hc)
    cases hd : dispatched s e k with
    | true =>
      simp only [dispatchCount, hd]
      have hz := blocked_zero evs (stepEv s e) ht (dispatch_makes_live hd)
      simp [hz]
    | false =>
      simp only [dispatchCount, hd]
      simpa using ih (stepEv s e) ht

/-- Witness for C1: two `get` calls for the same triple with no intervening
`clear` dispatch at most one fetch. -/
theorem single_dispatch_per_key_witness :
    dispatchCount initState (mkKey "d" "a" "v")
      [Event.get "d" "c" "a" "v", Event.get "d" "c" "a" "v"] ≤ 1 :=
  single_dispatch_per_key _ _ _ (by decide)

/-! ### Store/requests disjointness and cache monotonicity -/

theorem get_store_eq (s : CacheState) (d crs a v : String) (ps : List Req) :
    (ExpressionFeatureCache.get s d crs a v ps).cache.store = s.store := by
  cases hlook : lookupStore s.store (mkKey d a v) with
  | some w => rw [get_stored hlook]
  | none =>
    cases hm : memB (mkKey d a v) s.requests with
    | true => rw [get_pending hlook hm]
    | false => rw [get_dispatch hlook hm]

/-- Keys with a resolved store entry are never pending. Holds in every
reachable state; it is what makes resolved entries immutable until `clear`. -/
def CacheInv (s : CacheState) : Prop :=
  ∀ k, (lookupStore s.store k).isSome = true → memB k s.requests = false

theorem inv_init : CacheInv initState := by
  intro k h
  simp [initState, lookupStore] at h

theorem inv_step {s : CacheState} (hs : CacheInv s) (e : Event) :
    CacheInv (stepEv s e) := by
  cases e with
  | get d crs a v =>
    show CacheInv (ExpressionFeatureCache.get s d crs a v []).cache
    cases hlook : lookupStore s.store (mkKey d a v) with
    | some w => rw [get_stored hlook]; exact hs
    | none =>
      cases hm : memB (mkKey d a v) s.requests with
      | true => rw [get_pending hlook hm]; exact hs
      | false =>
        rw [get_dispatch hlook hm]
        intro k hk
        show memB k (mkKey d a v :: s.requests) = false
        rw [memB_cons]
        by_cases hkk : mkKey d a v = k
        · subst hkk
          have hk' : (lookupStore s.store (mkKey d a v)).isSome = true := hk
          rw [hlook] at hk'
          simp at hk'
        · rw [if_neg hkk]
          exact hs k hk
  | complete k0 res =>
    show CacheInv (ExpressionFeatureCache.complete s k0 res)
    cases hm : memB k0 s.requests with
    | false => rw [complete_not_mem hm]; exact hs
    | true =>
      rw [complete_mem hm]
      intro k hk
      by_cases hkk : k = k0
      · subst hkk
        exact memB_removeKey_self _ _
      · have hk' : (lookupStore (insertStore s.store k0
            (if ((res.map FetchResult.features).getD []).length == 1 then
              ((res.map FetchResult.features).getD []).head? else none))
            k).isSome = true := hk
        rw [lookup_insert_ne _ _ hkk] at hk'
        show memB k (removeKey k0 s.requests) = false
        rw [memB_removeKey_ne _ hkk]
        exact hs k hk'
  | clear =>
    intro k h
    simp [stepEv, ExpressionFeatureCache.clear, lookupStore] at h

theorem stored_stable_step {s : CacheState} {e : Event} {k : String}
    {w : Option Feature} (hs : CacheInv s) (he : e ≠ Event.clear)
    (h : lookupStore s.store k = some w) :
    lookupStore (stepEv s e).store k = some w := by
  cases e with
  | get d crs a v =>
    show lookupStore (ExpressionFeatureCache.get s d crs a v []).cache.store k
      = some w
    rw [get_store_eq]
    exact h
  | complete k0 res =>
    show lookupStore (ExpressionFeatureCache.complete s k0 res).store k = some w
    cases hm : memB k0 s.requests with
    | false => rw [complete_not_mem hm]; exact h
    | true =>
      have hkk : k ≠ k0 := by
        intro hkk
        subst hkk
        have hfree := hs k (by simp [h])
        simp [hfree] at hm
      rw [complete_mem hm]
      show lookupStore (insertStore s.store k0
        (if ((res.map FetchResult.features).getD []).length == 1 then
          ((res.map FetchResult.features).getD []).head? else none)) k = some w
      rw [lookup_insert_ne _ _ hkk]
      exact h
  | clear => exact absurd rfl he

theorem inv_run (evs : List Event) (s : CacheState) (hs : CacheInv s) :
    CacheInv (runEv s evs) := by
  induction evs generalizing s with
  | nil => exact hs
  | cons e evs ih => exact ih _ (inv_step hs e)

theorem stored_stable_run (evs : List Event) {s : CacheState} {k : String}
    {w : Option Feature} (hs : CacheInv s) (h : Event.clear ∉ evs)
    (hw : lookupStore s.store k = some w) :
    lookupStore (runEv s evs).store k = some w := by
  induction evs generalizing s with
  | nil => exact hw
  | cons e evs ih =>
    have he : e ≠ Event.clear := fun hc => h (by rw [hc]; exact List.mem_cons_self _ _)
    have ht : Event.clear ∉ evs := fun hc => h (List.mem_cons_of_mem e hc)
    exact ih (inv_step hs e) ht (stored_stable_step hs he hw)

/-- C4: cache monotonicity. Once a key has a resolved entry (a record, or
`null` standing for Absent) in a state reachable from the initial cache, any
further clear-free event sequence leaves that entry unchanged, and a `get` for
the key returns exactly the stored value, leaves the cache untouched and
appends nothing to the promise list. -/
theorem cache_monotonic (evs0 evs : List Event) (d crs a v : String)
    (val : Option Feature) (ps : List Req) (h : Event.clear ∉ evs)
    (hres : lookupStore (runEv initState evs0).store (mkKey d a v) = some val) :
    lookupStore (runEv (runEv initState evs0) evs).store (mkKey d a v) = some val
    ∧ ExpressionFeatureCache.get (runEv (runEv initState evs0) evs) d crs a v ps
        = ⟨runEv (runEv initState evs0) evs, val, ps⟩ := by
  have hinv := inv_run evs0 initState inv_init
  have hstable := stored_stable_run evs hinv h hres
  exact ⟨hstable, get_stored hstable⟩

/-- Witness for C4: after a fetch for `d:a:v` resolves to feature `7`, a later
`get` for another key and a later `get` for the same key leave the entry
intact and return the stored record. -/
theorem cache_monotonic_witness :
    lookupStore (runEv (runEv initState
        [Event.get "d" "c" "a" "v",
          Event.complete (mkKey "d" "a" "v") (some ⟨[7]⟩)])
      [Event.get "x" "c" "y" "z", Event.get "d" "c" "a" "v"]).store
      (mkKey "d" "a" "v") = some (some 7)
    ∧ ExpressionFeatureCache.get (runEv (runEv initState
        [Event.get "d" "c" "a" "v",
          Event.complete (mkKey "d" "a" "v") (some ⟨[7]⟩)])
      [Event.get "x" "c" "y" "z", Event.get "d" "c" "a" "v"]) "d" "c" "a" "v" []
      = ⟨runEv (runEv initState
        [Event.get "d" "c" "a" "v",
          Event.complete (mkKey "d" "a" "v") (some ⟨[7]⟩)])
      [Event.get "x" "c" "y" "z", Event.get "d" "c" "a" "v"], some 7, []⟩ :=
  cache_monotonic _ _ "d" "c" "a" "v" (some 7) [] (by decide) (by decide)

/-- C3: a `get` for a key that is pending (fetch dispatched, not completed)
and not resolved in the store returns `null`, appends nothing to the caller's
promise list, and leaves the cache unchanged: the caller is not attached to
the outstanding fetch. -/
theorem pending_not_attached (s : CacheState) (d crs a v : String)
    (ps : List Req) (h1 : lookupStore s.store (mkKey d a v) = none)
    (h2 : memB (mkKey d a v) s.requests = true) :
    (ExpressionFeatureCache.get s d crs a v ps).value = none
    ∧ (ExpressionFeatureCache.get s d crs a v ps).promises = ps
    ∧ (ExpressionFeatureCache.get s d crs a v ps).cache = s := by
  rw [get_pending h1 h2]
  exact ⟨rfl, rfl, rfl⟩

/-- Witness for C3: with `d:a:v` pending, a concurrent `get` observes `null`
and receives no promise. -/
theorem pending_not_attached_witness :
    (ExpressionFeatureCache.get ⟨[], [mkKey "d" "a" "v"]⟩ "d" "c" "a" "v"
        []).value = none
    ∧ (ExpressionFeatureCache.get ⟨[], [mkKey "d" "a" "v"]⟩ "d" "c" "a" "v"
        []).promises = []
    ∧ (ExpressionFeatureCache.get ⟨[], [mkKey "d" "a" "v"]⟩ "d" "c" "a" "v"
        []).cache = ⟨[], [mkKey "d" "a" "v"]⟩ :=
  pending_not_attached _ "d" "c" "a" "v" [] (by decide) (by decide)

/-- C10: a fetch completion arriving after `clear()` is a no-op on the fresh
cache: the callback only writes while its key is in the *current* request set,
and `clear` replaces that set, so a stale completion writes nothing into the
new store and leaves the new pending set untouched (the model's completion
function is total, i.e. the promise still resolves). -/
theorem stale_completion_noop (s : CacheState) (k : String)
    (res : Option FetchResult) :
    (memB k s.requests = false → ExpressionFeatureCache.complete s k res = s)
    ∧ ExpressionFeatureCache.complete ExpressionFeatureCache.clear k res
        = ExpressionFeatureCache.clear :=
  ⟨fun h => complete_not_mem h, complete_not_mem rfl⟩

/-- Witness for C10: a stale completion for key `x` leaves a post-`clear`
state containing no pending request for `x` unchanged. -/
theorem stale_completion_noop_witness :
    ExpressionFeatureCache.complete ⟨[("y", none)], []⟩ "x" (some ⟨[3]⟩)
      = ⟨[("y", none)], []⟩ :=
  (stale_completion_noop ⟨[("y", none)], []⟩ "x" (some ⟨[3]⟩)).1 (by decide)

/-- C7: when a dispatched fetch completes while its key is still pending, the
outcome stored is the single matching record if the (null-coalesced) feature
list has exactly one element, and `null` (Absent) if it has zero or several;
the key leaves the pending set, and a later `get` surfaces the stored outcome
— a cached Absent comes back as `null`, not as an error. -/
theorem fetch_completion_outcome (s s' : CacheState) (d crs a v : String)
    (res : Option FetchResult) (ps : List Req)
    (h : memB (mkKey d a v) s.requests = true)
    (hs' : s' = ExpressionFeatureCache.complete s (mkKey d a v) res) :
    (∀ f, (res.map FetchResult.features).getD [] = [f] →
      lookupStore s'.store (mkKey d a v) = some (some f)
      ∧ ExpressionFeatureCache.get s' d crs a v ps = ⟨s', some f, ps⟩)
    ∧ (((res.map FetchResult.features).getD []).length ≠ 1 →
      lookupStore s'.store (mkKey d a v) = some none
      ∧ ExpressionFeatureCache.get s' d crs a v ps = ⟨s', none, ps⟩)
    ∧ memB (mkKey d a v) s'.requests = false := by
  subst hs'
  rw [complete_mem h]
  refine ⟨?_, ?_, ?_⟩
  · intro f hf
    have h1 : lookupStore (insertStore s.store (mkKey d a v)
        (if ((res.map FetchResult.features).getD []).length == 1 then
          ((res.map FetchResult.features).getD []).head? else none))
        (mkKey d a v) = some (some f) := by
      rw [hf]
      simp [lookup_insert_self]
    exact ⟨h1, get_stored h1⟩
  · intro hlen
    have hb : (((res.map FetchResult.features).getD []).length == 1) = false :=
      beq_eq_false_iff_ne.mpr hlen
    have h2 : lookupStore (insertStore s.store (mkKey d a v)
        (if ((res.map FetchResult.features).getD []).length == 1 then
          ((res.map FetchResult.features).getD []).head? else none))
        (mkKey d a v) = some none := by
      rw [hb]
      simp [lookup_insert_self]
    exact ⟨h2, get_stored h2⟩
  · exact memB_removeKey_self _ _

/-- Witness for C7: a pending fetch for `t:id:42` completing with exactly one
feature stores that feature and removes the key from the pending set. -/
theorem fetch_completion_outcome_witness :
    lookupStore (ExpressionFeatureCache.complete ⟨[], [mkKey "t" "id" "42"]⟩
        (mkKey "t" "id" "42") (some ⟨[5]⟩)).store (mkKey "t" "id" "42")
      = some (some 5)
    ∧ memB (mkKey "t" "id" "42") (ExpressionFeatureCache.complete
        ⟨[], [mkKey "t" "id" "42"]⟩ (mkKey "t" "id" "42")
        (some ⟨[5]⟩)).requests = false := by
  have h := fetch_completion_outcome ⟨[], [mkKey "t" "id" "42"]⟩ _ "t" "c" "id"
    "42" (some ⟨[5]⟩) [] (by decide) rfl
  exact ⟨(h.1 5 (by decide)).1, h.2.2⟩

/-! ### Cache-key identity (C8) -/

theorem mkKey_data (d a v : String) :
    (mkKey d a v).data = d.data ++ ':' :: (a.data ++ ':' :: v.data) := by
  show (d ++ ":" ++ a ++ ":" ++ v).data = _
  have hcolon : (":" : String).data = [':'] := rfl
  rw [String.data_append, String.data_append, String.data_append,
    String.data_append, hcolon]
  simp [List.append_assoc]

theorem append_colon_inj : ∀ (xs xs' ys ys' : List Char), ':' ∉ xs →
    ':' ∉ xs' → xs ++ ':' :: ys = xs' ++ ':' :: ys' → xs = xs' ∧ ys = ys' := by
  intro xs
  induction xs with
  | nil =>
    intro xs' ys ys' _ hx' h
    cases xs' with
    | nil => simpa using h
    | cons c rest =>
      simp at h
      obtain ⟨hc, _⟩ := h
      apply absurd _ hx'
      rw [hc]
      exact List.mem_cons_self _ _
  | cons c rest ih =>
    intro xs' ys ys' hx hx' h
    cases xs' with
    | nil =>
      simp at h
      obtain ⟨hc, _⟩ := h
      apply absurd _ hx
      rw [← hc]
      exact List.mem_cons_self _ _
    | cons c' rest' =>
      simp at h
      obtain ⟨hc, htail⟩ := h
      have hxr : ':' ∉ rest := fun hm => hx (List.mem_cons_of_mem _ hm)
      have hxr' : ':' ∉ rest' := fun hm => hx' (List.mem_cons_of_mem _ hm)
      obtain ⟨h1, h2⟩ := ih rest' ys ys' hxr hxr' htail
      subst hc
      exact ⟨by rw [h1], h2⟩

/-- C8 counterexample: cache-key identity is *not* structural on the triple —
the key is the colon-joined string, so the two distinct triples
`("a:b", "c", "v")` and `("a", "b:c", "v")` produce the same key, and a `get`
with the second triple returns the record fetched and stored under the first
triple without any fetch of its own. -/
theorem key_identity_counterexample :
    (("a:b", "c", "v") : String × String × String) ≠ ("a", "b:c", "v")
    ∧ mkKey "a:b" "c" "v" = mkKey "a" "b:c" "v"
    ∧ (ExpressionFeatureCache.get
        (stepEv (stepEv initState (Event.get "a:b" "crs" "c" "v"))
          (Event.complete (mkKey "a:b" "c" "v") (some ⟨[7]⟩)))
        "a" "crs" "b:c" "v" []).value = some 7 :=
  ⟨by decide, by decide, by decide⟩

/-- C8 amended: component-wise equal triples always map to the same cache
entry, and provided the dataset and attribute components contain no `':'`
(the join separator), two triples share a cache key exactly when they are
component-wise equal. -/
theorem key_identity_structural (d a v d' a' v' : String)
    (hd : ':' ∉ d.data) (ha : ':' ∉ a.data)
    (hd' : ':' ∉ d'.data) (ha' : ':' ∉ a'.data) :
    mkKey d a v = mkKey d' a' v' ↔ (d = d' ∧ a = a' ∧ v = v') := by
  constructor
  · intro h
    have hdata := congrArg String.data h
    rw [mkKey_data, mkKey_data] at hdata
    obtain ⟨h1, h2⟩ := append_colon_inj _ _ _ _ hd hd' hdata
    obtain ⟨h3, h4⟩ := append_colon_inj _ _ _ _ ha ha' h2
    exact ⟨String.ext h1, String.ext h3, String.ext h4⟩
  · rintro ⟨rfl, rfl, rfl⟩
    rfl

/-- Witness for the amended C8 on concrete colon-free components. -/
theorem key_identity_structural_witness :
    mkKey "p" "q" "r" = mkKey "p" "x" "r"
      ↔ (("p" : String) = "p" ∧ ("q" : String) = "x" ∧ ("r" : String) = "r") :=
  key_identity_structural "p" "q" "r" "p" "x" "r"
    (by decide) (by decide) (by decide) (by decide)

/-! ### The expression drivers (`parseExpression`, `parseExpressionsAsync`) -/

/-- Values produced by the external expression grammar (opaque to this core). -/
inductive Val where
  | vnull
  | vnum (n : Int)
  | vstr (s : String)
  | vbool (b : Bool)
  | vfeat (f : Feature)
  | varr1 (v : Val)
deriving DecidableEq, Repr

/-- Modelled from the spec: the repository's nearley grammar
(`./expr_grammar/grammar`, outside `src/`) is an external collaborator
exposing `parse(text) -> ExprTree | ParseError`; on a `ParseError` no tree exists
and nothing evaluates. An `ExprTree` is the minimal evaluated-parse fragment the
claims need: literals, numeric addition, and the
`getFeature(layer, attr, value)` foreign lookup that the ambient context
routes to `ExpressionFeatureCache.get`. -/
inductive ExprTree where
  | lit (v : Val)
  | add (a b : ExprTree)
  | getFeat (layer attr value : String)
deriving DecidableEq, Repr

/-- The record the expression is evaluated against (opaque to the drivers). -/
abbrev FeatureRec := List (String × Val)

/-- Numeric addition of the modelled grammar fragment. -/
def numAdd : Val → Val → Val
  | .vnum x, .vnum y => .vnum (x + y)
  | _, _ => .vnull

/-- State threaded through one parse/evaluate pass: the shared cache and the
promise list owned by the current cycle. -/
structure PassSt where
  cache : CacheState
  reqs : List Req
deriving DecidableEq, Repr

/-- Tree evaluation under the ambient context of lines 49–53 / 80–84: the
`getFeature` closure calls `ExpressionFeatureCache.get` with
`mapPrefix + layerName`, `mapCrs` and the shared promise list; a missing or
Absent record surfaces as `null`. -/
def evalTree (feat : FeatureRec) (asFilter : Bool) (mapPrefix mapCrs : String) :
    ExprTree → PassSt → Val × PassSt
  | .lit v, st => (v, st)
  | .add a b, st =>
    let ra := evalTree feat asFilter mapPrefix mapCrs a st
    let rb := evalTree feat asFilter mapPrefix mapCrs b ra.2
    (numAdd ra.1 rb.1, rb.2)
  | .getFeat layer attr value, st =>
    let r := ExpressionFeatureCache.get st.cache (mapPrefix ++ layer) mapCrs
      attr value st.reqs
    ((match r.value with
      | some f => Val.vfeat f
      | none => Val.vnull), ⟨r.cache, r.promises⟩)

/-- `expr.replace(/\n/, ' ')` of lines 56/59/88/91: the regex has no global
flag, so only the first newline is replaced. -/
def replaceFirstLF : List Char → List Char
  | [] => []
  | c :: rest => if c = '\n' then ' ' :: rest else c :: replaceFirstLF rest

/-- The newline normalization applied to expression text before feeding the
parser, in both drivers. -/
def normalizeNewline (s : String) : String := ⟨replaceFirstLF s.data⟩

/-- Outcome of the `try { parser.feed(...); result = parser.results[0] }`
block of `parseExpression` (lines 54–60): on a parse error `result` stays
`null`, nothing evaluates, and a diagnostic is logged (`failed`). -/
structure PassOut where
  result : Val
  cache : CacheState
  reqs : List Req
  failed : Bool
deriving DecidableEq, Repr

/-- One parse/evaluate pass of `parseExpression`. -/
def runPass (parse : String → Option ExprTree) (feat : FeatureRec)
    (mapPrefix mapCrs : String) (asFilter : Bool) (expr : String)
    (s : CacheState) : PassOut :=
  match parse (normalizeNewline expr) with
  | none => ⟨Val.vnull, s, [], true⟩
  | some t =>
    let r := evalTree feat asFilter mapPrefix mapCrs t ⟨s, []⟩
    ⟨r.1, r.2.cache, r.2.reqs, false⟩

/-- The external data source: a deterministic response per dispatched request
(`getFeatures` eventually calls back exactly once per dispatch). -/
abbrev FetchEnv := Req → Option FetchResult

/-- Awaiting `Promise.all`: every dispatched request's `getFeatures` callback
fires against the then-current cache. -/
def awaitAll (env : FetchEnv) (s : CacheState) : List Req → CacheState
  | [] => s
  | r :: rs => awaitAll env (ExpressionFeatureCache.complete s r.key (env r)) rs

/-- Observable outcome of one top-level `parseExpression` call: the value the
call returns immediately, the cache once all scheduled rounds have settled,
how often `reevaluateCallback` ran, and how many parse diagnostics were
logged. -/
structure EvalOutcome where
  result : Val
  cache : CacheState
  callbackCount : Nat
  warnCount : Nat
deriving DecidableEq, Repr

/-- Lines 45–75 of the source, fuel-indexed. Each round parses and evaluates;
if promises were pushed, the round returns `null` now and schedules a re-run
of the same call with `reevaluate = true` once all promises resolve (line 64
uses a proper thunk, unlike the batch driver); a round whose promise list is
empty invokes `reevaluateCallback` exactly when `reevaluate` is set, wraps the
result in a one-element list under `asFilter`, and returns it. `none` means
the rounds did not settle within `fuel`. -/
def parseExpression (parse : String → Option ExprTree) (env : FetchEnv)
    (expr : String) (feat : FeatureRec) (mapPrefix mapCrs : String)
    (asFilter : Bool) : Nat → Bool → CacheState → Option EvalOutcome
  | 0, _, _ => none
  | fuel + 1, reevaluate, s =>
    let p := runPass parse feat mapPrefix mapCrs asFilter expr s
    if p.reqs.isEmpty then
      some ⟨if asFilter then Val.varr1 p.result else p.result, p.cache,
        if reevaluate then 1 else 0, if p.failed then 1 else 0⟩
    else
      match parseExpression parse env expr feat mapPrefix mapCrs asFilter
          fuel true (awaitAll env p.cache p.reqs) with
      | none => none
      | some o =>
        some ⟨Val.vnull, o.cache, o.callbackCount,
          (if p.failed then 1 else 0) + o.warnCount⟩

/-- Result of the `Object.entries(expressions).reduce(...)` pass of
`parseExpressionsAsync` (lines 85–94): the name-to-result mapping over the
expressions that parsed (failed parses are dropped and logged), the cache and
the shared promise list afterwards. -/
structure BatchOut where
  results : List (String × Val)
  cache : CacheState
  reqs : List Req
  warnCount : Nat
deriving DecidableEq, Repr

/-- One batch pass: every expression is parsed with a fresh parser and
evaluated against the shared context and promise list. -/
def batchPass (parse : String → Option ExprTree) (feat : FeatureRec)
    (mapPrefix mapCrs : String) (asFilter : Bool) :
    List (String × String) → CacheState → BatchOut
  | [], s => ⟨[], s, [], 0⟩
  | (name, expr) :: rest, s =>
    match parse (normalizeNewline expr) with
    | none =>
      let b := batchPass parse feat mapPrefix mapCrs asFilter rest s
      ⟨b.results, b.cache, b.reqs, 1 + b.warnCount⟩
    | some t =>
      let r := evalTree feat asFilter mapPrefix mapCrs t ⟨s, []⟩
      let b := batchPass parse feat mapPrefix mapCrs asFilter rest r.2.cache
      ⟨(name, r.1) :: b.results, b.cache, r.2.reqs ++ b.reqs, b.warnCount⟩

/-- Lines 77–103 of the source, fuel-indexed, returning the value the outer
promise resolves with, the final cache, and the diagnostics count. The
recursion branch reproduces the source's line 98,
`Promise.all(promises).then(parseExpressionsAsync(...).then(resolve(results)))`,
faithfully: the argument of the outer `.then` is evaluated immediately, so
(1) the recursive batch run starts right away, on the cache as it stands
before any promise has resolved, and (2) `resolve(results)` is called (not
passed), settling the outer promise with the current pass's provisional
mapping; the recursion's own resolution value is discarded, and the
dispatched fetches complete afterwards without triggering any further
re-run. -/
def parseExpressionsAsync (parse : String → Option ExprTree) (env : FetchEnv)
    (exprs : List (String × String)) (feat : FeatureRec)
    (mapPrefix mapCrs : String) (asFilter : Bool) :
    Nat → CacheState → Option (List (String × Val) × CacheState × Nat)
  | 0, _ => none
  | fuel + 1, s =>
    let b := batchPass parse feat mapPrefix mapCrs asFilter exprs s
    if b.reqs.isEmpty then
      some (b.results, b.cache, b.warnCount)
    else
      match parseExpressionsAsync parse env exprs feat mapPrefix mapCrs
          asFilter fuel b.cache with
      | none => none
      | some (_, s2, w2) =>
        some (b.results, awaitAll env s2 b.reqs, b.warnCount + w2)

/-! ### Reevaluate-callback discipline (C6) -/

theorem callback_once_of_reevaluate (parse : String → Option ExprTree)
    (env : FetchEnv) (expr : String) (feat : FeatureRec)
    (mapPrefix mapCrs : String) (asFilter : Bool) :
    ∀ (fuel : Nat) (s : CacheState) (o : EvalOutcome),
      parseExpression parse env expr feat mapPrefix mapCrs asFilter fuel true s
        = some o → o.callbackCount = 1 := by
  intro fuel
  induction fuel with
  | zero => intro s o h; exact Option.noConfusion h
  | succ fuel ih =>
    intro s o h
    simp only [parseExpression] at h
    split at h
    · injection h with h2
      rw [← h2]
      simp
    · split at h
      · exact Option.noConfusion h
      · rename_i o' h'
        injection h with h2
        rw [← h2]
        exact ih _ o' h'

/-- C6: `reevaluateCallback` fires exactly once per settling top-level
`parseExpression` call whose first round left promises pending, and never when
the very first round settles with an empty promise list. -/
theorem reevaluate_callback_discipline (parse : String → Option ExprTree)
    (env : FetchEnv) (expr : String) (feat : FeatureRec)
    (mapPrefix mapCrs : String) (asFilter : Bool) (fuel : Nat)
    (s : CacheState) (o : EvalOutcome)
    (h : parseExpression parse env expr feat mapPrefix mapCrs asFilter fuel
      false s = some o) :
    o.callbackCount
      = if (runPass parse feat mapPrefix mapCrs asFilter expr s).reqs.isEmpty
        then 0 else 1 := by
  cases fuel with
  | zero => exact Option.noConfusion h
  | succ fuel =>
    simp only [parseExpression] at h
    split at h
    · rename_i hreqs
      simp only [hreqs, if_true]
      injection h with h2
      rw [← h2]
      simp
    · rename_i hreqs
      rw [if_neg hreqs]
      split at h
      · exact Option.noConfusion h
      · rename_i o' h'
        injection h with h2
        rw [← h2]
        exact callback_once_of_reevaluate parse env expr feat mapPrefix mapCrs
          asFilter fuel _ o' h'

/-- Witness for C6: an expression with no dependency settles in round one with
the callback never invoked. -/
theorem reevaluate_callback_discipline_witness :
    (⟨Val.vnum 2, initState, 0, 0⟩ : EvalOutcome).callbackCount
      = if (runPass (fun _ => some (ExprTree.lit (Val.vnum 2))) [] "" ""
          false "e" initState).reqs.isEmpty then 0 else 1 :=
  reevaluate_callback_discipline (fun _ => some (ExprTree.lit (Val.vnum 2)))
    (fun _ => none) "e" [] "" "" false 1 initState
    ⟨Val.vnum 2, initState, 0, 0⟩ rfl

/-! ### Parse failures are fatal and local (C5) -/

theorem batch_names (parse : String → Option ExprTree) (feat : FeatureRec)
    (mapPrefix mapCrs : String) (asFilter : Bool) :
    ∀ (exprs : List (String × String)) (s : CacheState),
      (batchPass parse feat mapPrefix mapCrs asFilter exprs s).results.map
          Prod.fst
        = (exprs.filter
            (fun p => (parse (normalizeNewline p.2)).isSome)).map Prod.fst := by
  intro exprs
  induction exprs with
  | nil => intro s; rfl
  | cons p rest ih =>
    intro s
    obtain ⟨name, expr⟩ := p
    cases hp : parse (normalizeNewline expr) with
    | none => simp [batchPass, hp, ih, List.filter_cons]
    | some t => simp [batchPass, hp, ih, List.filter_cons]

/-- C5: a parse failure is fatal for the call and never retried. In
`parseExpression`, a failing parse logs one diagnostic and the call settles in
its first round — `null` result (a one-element `[null]` under filter mode),
cache untouched, no reevaluation round scheduled, no callback, no exception
(the model is a total function). In `parseExpressionsAsync`, the failed
expression's name is dropped from the result mapping while exactly the
successfully parsing expressions keep their entries, in order. -/
theorem parse_failure_fatal (parse : String → Option ExprTree) (env : FetchEnv)
    (expr : String) (feat : FeatureRec) (mapPrefix mapCrs : String)
    (asFilter : Bool) (fuel : Nat) (s : CacheState)
    (exprs : List (String × String)) :
    (parse (normalizeNewline expr) = none →
      parseExpression parse env expr feat mapPrefix mapCrs asFilter (fuel + 1)
          false s
        = some ⟨if asFilter then Val.varr1 Val.vnull else Val.vnull, s, 0, 1⟩)
    ∧ (batchPass parse feat mapPrefix mapCrs asFilter exprs s).results.map
          Prod.fst
        = (exprs.filter
            (fun p => (parse (normalizeNewline p.2)).isSome)).map Prod.fst := by
  constructor
  · intro hfail
    have hp : runPass parse feat mapPrefix mapCrs asFilter expr s
        = ⟨Val.vnull, s, [], true⟩ := by
      unfold runPass
      rw [hfail]
    simp only [parseExpression, hp]
    rfl
  · exact batch_names parse feat mapPrefix mapCrs asFilter exprs s

/-- Witness for C5: a failing parse yields a settled `null` outcome with one
diagnostic and an unchanged cache. -/
theorem parse_failure_fatal_witness :
    parseExpression (fun _ => none) (fun _ => none) "bad" [] "" "" false 1
      false initState = some ⟨Val.vnull, initState, 0, 1⟩ :=
  (parse_failure_fatal (fun _ => none) (fun _ => none) "bad" [] "" "" false 0
    initState []).1 rfl

/-! ### The batch driver resolves with a provisional mapping (C2) -/

/-- Concrete instance of the external parse contract for the Scenario E batch:
`1+1` parses to a numeric addition, `getFeature(t,id,42)` to a foreign lookup
on dataset `t`. -/
def demoParse : String → Option ExprTree := fun t =>
  if t = "1+1" then
    some (ExprTree.add (ExprTree.lit (Val.vnum 1)) (ExprTree.lit (Val.vnum 1)))
  else if t = "getFeature(t,id,42)" then
    some (ExprTree.getFeat "t" "id" "42")
  else none

/-- Concrete external data source: the lookup on `t:id:42` returns exactly one
matching record, feature `150`. -/
def demoEnv : FetchEnv := fun r =>
  if r.key = mkKey "t" "id" "42" then some ⟨[150]⟩ else none

/-- C2 fails on the code (code bug): for the batch
`{x: "1+1", y: "getFeature(t,id,42)"}` on an empty cache, the promise returned
by `parseExpressionsAsync` resolves with the provisional first-pass mapping
`{x: 2, y: null}` — even though the dispatched fetch later completes and the
final cache holds the resolved record `150` for `t:id:42`. Line 98 of the
source passes `parseExpressionsAsync(...).then(resolve(results))` as the
argument of `.then`, so `resolve(results)` runs immediately and the re-run
starts before the promises settle, contradicting both the claim and the
source's own comment ("reevaluate when promises are resolved"). -/
theorem batch_resolves_with_provisional_mapping :
    parseExpressionsAsync demoParse demoEnv
        [("x", "1+1"), ("y", "getFeature(t,id,42)")] [] "" "crs" false 2
        initState
      = some ([("x", Val.vnum 2), ("y", Val.vnull)],
          ⟨[(mkKey "t" "id" "42", some 150)], []⟩, 0) := by
  decide

/-! ### Newline normalization (C9) -/

theorem replaceFirstLF_no_lf :
    ∀ zs : List Char, '\n' ∉ zs → replaceFirstLF zs = zs := by
  intro zs
  induction zs with
  | nil => intro _; rfl
  | cons c rest ih =>
    intro h
    have hc : ¬ (c = '\n') := fun hc => h (by rw [hc]; exact List.mem_cons_self _ _)
    have hr : '\n' ∉ rest := fun hm => h (List.mem_cons_of_mem _ hm)
    simp [replaceFirstLF, hc, ih hr]

theorem replaceFirstLF_first : ∀ (xs ys : List Char), '\n' ∉ xs →
    replaceFirstLF (xs ++ '\n' :: ys) = xs ++ ' ' :: ys := by
  intro xs
  induction xs with
  | nil => intro ys _; simp [replaceFirstLF]
  | cons c rest ih =>
    intro ys h
    have hc : ¬ (c = '\n') := fun hc => h (by rw [hc]; exact List.mem_cons_self _ _)
    have hr : '\n' ∉ rest := fun hm => h (List.mem_cons_of_mem _ hm)
    simp [replaceFirstLF, hc, ih ys hr]

/-- C9: before parsing, only the first newline of the expression text is
replaced by a space — text before it is copied, text after it (further
newlines included) is untouched, and newline-free text is unchanged — and
both `parseExpression` passes and `parseExpressionsAsync` passes feed the
parser exactly this normalization of the expression text. -/
theorem first_newline_only (xs ys zs : List Char)
    (parse : String → Option ExprTree) (feat : FeatureRec)
    (mapPrefix mapCrs : String) (asFilter : Bool) (e1 e2 : String)
    (s : CacheState) (name : String) (rest : List (String × String)) :
    ('\n' ∉ xs → normalizeNewline ⟨xs ++ '\n' :: ys⟩ = ⟨xs ++ ' ' :: ys⟩)
    ∧ ('\n' ∉ zs → normalizeNewline ⟨zs⟩ = ⟨zs⟩)
    ∧ (normalizeNewline e1 = normalizeNewline e2 →
        runPass parse feat mapPrefix mapCrs asFilter e1 s
            = runPass parse feat mapPrefix mapCrs asFilter e2 s
        ∧ batchPass parse feat mapPrefix mapCrs asFilter ((name, e1) :: rest) s
            = batchPass parse feat mapPrefix mapCrs asFilter
                ((name, e2) :: rest) s) := by
  refine ⟨?_, ?_, ?_⟩
  · intro h
    exact congrArg String.mk (replaceFirstLF_first xs ys h)
  · intro h
    exact congrArg String.mk (replaceFirstLF_no_lf zs h)
  · intro h
    constructor
    · unfold runPass
      rw [h]
    · simp only [batchPass]
      rw [h]

/-- Witness for C9: in `"a\nb\nc"` only the first newline becomes a space. -/
theorem first_newline_only_witness :
    normalizeNewline ⟨['a'] ++ '\n' :: ['b', '\n', 'c']⟩
      = ⟨['a'] ++ ' ' :: ['b', '\n', 'c']⟩ :=
  (first_newline_only ['a'] ['b', '\n', 'c'] [] (fun _ => none) [] "" ""
    false "" "" initState "" []).1 (by decide)
